import Mathlib

/-!
Verification development for the asynchronous operation core of liboffkv:
the error translator (`src/error.hpp`), the blocking work queue and the
continuation scheduler ("time machine", `src/time_machine.hpp`).

The C++ sources are shallowly embedded: exceptions become an explicit
`Exc` sum type and `Except`, the queue becomes a pure state-passing
structure, and the scheduler shutdown protocol becomes an explicit
small-step transition system over interleavings of the detached worker
threads and the destructor.
-/

namespace LibOffKv

/-! ## Error model (src/error.hpp)

`zk::error_code` values that `liboffkv_try` inspects.  The translator
switches on `no_entry`, `entry_exists` and `version_mismatch`; every
other code falls into `default: __builtin_unreachable()`, which we model
as undefined behaviour (`none`). -/

inductive ZkCode where
  | no_entry
  | entry_exists
  | version_mismatch
  | connection_loss
  | marshalling_error
  deriving DecidableEq, Repr

/-- The exception vocabulary crossing `liboffkv_try`: the backend-native
exception types caught by the translator (`zk::error`,
`ppconsul::BadStatus`, `ppconsul::kv::UpdateError`), the canonical kinds
defined in `src/error.hpp` (`InvalidAddress`, `InvalidKey`, `NoEntry`,
`EntryExists`), and any other exception (with its diagnostic). -/
inductive Exc where
  | zkError (c : ZkCode)
  | badStatus (diag : String)
  | updateError (diag : String)
  | invalidAddress
  | invalidKey
  | noEntry
  | entryExists
  | otherExc (diag : String)
  deriving DecidableEq, Repr

/-- An exception of one of the backend-specific types
(`zk::error`, `ppconsul::BadStatus`, `ppconsul::kv::UpdateError`). -/
def Exc.isBackendSpecific : Exc → Bool
  | .zkError _ => true
  | .badStatus _ => true
  | .updateError _ => true
  | _ => false

/-- A canonical ErrorKind as defined in `src/error.hpp`: one of the
exception classes `InvalidAddress`, `InvalidKey`, `NoEntry`,
`EntryExists`.  (No `ServiceError`, `VersionMismatch` or
`ConnectionLoss` class exists in the source.) -/
def Exc.isCanonical : Exc → Bool
  | .invalidAddress => true
  | .invalidKey => true
  | .noEntry => true
  | .entryExists => true
  | _ => false

/-- `liboffkv_try` (src/error.hpp:48-68).  The wrapped callable is
represented by its outcome `r : Except Exc A`.  A normal return and an
uncaught exception propagate unchanged; a caught `zk::error` is switched
on its code (`no_entry ↦ NoEntry`, `entry_exists ↦ EntryExists`,
`version_mismatch ↦ throw e`, otherwise `__builtin_unreachable()`,
modelled as `none`); a caught `ppconsul::BadStatus` or
`ppconsul::kv::UpdateError` is re-thrown as itself. -/
def liboffkv_try {A : Type} (r : Except Exc A) : Option (Except Exc A) :=
  match r with
  | .ok a => some (.ok a)
  | .error e =>
    match e with
    | .zkError c =>
      match c with
      | .no_entry => some (.error .noEntry)
      | .entry_exists => some (.error .entryExists)
      | .version_mismatch => some (.error (.zkError .version_mismatch))
      | _ => none
    | .badStatus d => some (.error (.badStatus d))
    | .updateError d => some (.error (.updateError d))
    | e => some (.error e)

/-! ## Blocking work queue (src/time_machine.hpp:27-107)

All queue member functions run under the single mutex `lock_`, so each
call is an atomic transformation of the state `(items_, closed_)`.
Blocking on the condition variable is represented explicitly: an
outcome `blocked` means the wait condition held and the call cannot
return without an intervening state change by another thread. -/

structure BlockingQueue (T : Type) where
  items : List T
  closed : Bool
  deriving DecidableEq, Repr

/-- Condition-variable wake-ups a queue call performs. -/
inductive Wake where
  | none
  | one
  | all
  deriving DecidableEq, Repr

namespace BlockingQueue

/-- `isEmpty` (line 97-100). -/
def isEmpty {T : Type} (q : BlockingQueue T) : Bool :=
  q.items.isEmpty

/-- `put` (lines 35-46): throws `QueueClosed` when the queue is closed;
otherwise pushes the item at the back and calls
`consumer_cv_.notify_one()`.  The error case is `Except.error ()`
(QueueClosed carries no data). -/
def put {T : Type} (q : BlockingQueue T) (item : T) :
    Except Unit (BlockingQueue T × Wake) :=
  if q.closed then
    .error ()
  else
    .ok ({ q with items := q.items ++ [item] }, Wake.one)

/-- Outcome of the single-item `get` (lines 49-63). -/
inductive GetOutcome (T : Type) where
  | blocked
  | closedEmpty
  | got (item : T) (q : BlockingQueue T)
  deriving DecidableEq, Repr

/-- Single-item `get` (lines 49-63): waits while `!closed_ && isEmpty()`;
then returns false if still empty (so: closed and empty), else moves the
front item out and pops it. -/
def get {T : Type} (q : BlockingQueue T) : GetOutcome T :=
  if !q.closed && q.isEmpty then
    .blocked
  else
    match q.items with
    | [] => .closedEmpty
    | item :: rest => .got item { q with items := rest }

/-- Outcome of the batch `get` overload (lines 65-87): either the call
blocks, or it returns a boolean, the list of items appended to
`out_items` (in pop order) and the resulting queue. -/
inductive BatchOutcome (T : Type) where
  | blocked
  | done (ret : Bool) (taken : List T) (q : BlockingQueue T)
  deriving DecidableEq, Repr

/-- Batch `get` (lines 65-87): `max_count == 0` returns true at once,
before taking the lock; with `require_at_least_one` it waits while
`!closed_ && isEmpty()` and returns false if still empty; then it moves
`min max_count items_.size` front items into `out_items` in FIFO
order. -/
def getBatch {T : Type} (q : BlockingQueue T) (max_count : Nat)
    (require_at_least_one : Bool) : BatchOutcome T :=
  if max_count = 0 then
    .done true [] q
  else if require_at_least_one && !q.closed && q.isEmpty then
    .blocked
  else if require_at_least_one && q.isEmpty then
    .done false [] q
  else
    let count := min max_count q.items.length
    .done true (q.items.take count) { q with items := q.items.drop count }

/-- `close` (lines 89-95): sets `closed_` and calls
`consumer_cv_.notify_all()`. -/
def close {T : Type} (q : BlockingQueue T) : BlockingQueue T × Wake :=
  ({ q with closed := true }, Wake.all)

end BlockingQueue

/-! ## The continuation closure built by `TimeMachine::then`
(src/time_machine.hpp:143-175)

`then` enqueues the pair `(readiness probe, action)`.  The action runs
the continuation `func` on the ready input future and settles the
shared promise.  We model the promise cell explicitly together with the
`std::promise` rule that a second `set_value`/`set_exception` throws
`std::future_error`; the continuation itself is represented by its
outcome `Except Exc B` ("throws" = `.error`). -/

inductive PromiseState (B : Type) where
  | unset
  | value (b : B)
  | failed (e : Exc)
  deriving DecidableEq, Repr

/-- `std::promise::set_value`: stores the value in an unset shared
state, throws `std::future_error` otherwise. -/
def PromiseState.set_value {B : Type} (p : PromiseState B) (b : B) :
    Except Exc (PromiseState B) :=
  match p with
  | .unset => .ok (.value b)
  | _ => .error (.otherExc "std::future_error: promise already satisfied")

/-- `std::promise::set_exception`: stores the exception in an unset
shared state, throws `std::future_error` otherwise. -/
def PromiseState.set_exception {B : Type} (p : PromiseState B) (e : Exc) :
    Except Exc (PromiseState B) :=
  match p with
  | .unset => .ok (.failed e)
  | _ => .error (.otherExc "std::future_error: promise already satisfied")

/-- The action lambda of `TimeMachine::then` (lines 154-169), applied to
a promise in state `p` with the continuation outcome `r = func(input)`.
Inner `try`: on a normal return of `func`, `set_value`; if anything in
the inner block throws (the continuation or `set_value` itself),
`set_exception(std::current_exception())`.  Outer `try`: if
`set_exception` throws in turn, discard and leave the promise as it
is.  Returns the final promise state. -/
def then_action {B : Type} (p : PromiseState B) (r : Except Exc B) :
    PromiseState B :=
  match r with
  | .ok b =>
    match p.set_value b with
    | .ok p1 => p1
    | .error e2 =>
      match p.set_exception e2 with
      | .ok p1 => p1
      | .error _ => p
  | .error e =>
    match p.set_exception e with
    | .ok p1 => p1
    | .error _ => p

/-! ## `TimeMachine::process_objects_` (src/time_machine.hpp:203-211)

```cpp
for (auto it = picked.begin(); it < picked.end(); ++it) {
    if (it->first(std::chrono::milliseconds(wait_for_object_ms_))) {
        it->second();
        picked.erase(it);
    }
}
```

`vector::erase(it)` shifts the element after `it` into `it`'s slot and
leaves `it` at the same index; the loop's `++it` then moves past that
shifted element, so the item immediately following a ready item is not
probed in this pass.  Items are identified by a label `a : A`; the
probe outcome during this pass is a pure function `ready : A → Bool`
(`is_ready(wait_for_object_ms)`). -/

/-- One pass of `process_objects_` over the local buffer.  Returns
`(remaining buffer, labels whose action was invoked, labels whose probe
was invoked)`, each in order of occurrence. -/
def process_objects_ {A : Type} (ready : A → Bool) :
    List A → List A × List A × List A
  | [] => ([], [], [])
  | [a] => if ready a then ([], [a], [a]) else ([a], [], [a])
  | a :: b :: rest =>
    if ready a then
      let (rem, ran, probed) := process_objects_ ready rest
      (b :: rem, a :: ran, a :: probed)
    else
      let (rem, ran, probed) := process_objects_ ready (b :: rest)
      (a :: rem, ran, a :: probed)

/-! ## Sequenced queue calls

The queue mutex serializes `put` / `get` / `close` calls, so a
concurrent history is a sequence of atomic calls.  `applyOp` gives the
queue state after one call (a throwing `put` and a `get` that blocks or
returns false leave the state unchanged), `putEffect` gives the full
observable effect of one `put` statement. -/

inductive QOp (T : Type) where
  | put (x : T)
  | getOne
  | close

namespace BlockingQueue

/-- State left by one serialized queue call. -/
def applyOp {T : Type} (q : BlockingQueue T) : QOp T → BlockingQueue T
  | .put x =>
    match q.put x with
    | .ok (q1, _) => q1
    | .error _ => q
  | .getOne =>
    match q.get with
    | .got _ q1 => q1
    | _ => q
  | .close => (q.close).1

/-- State after a sequence of serialized queue calls. -/
def applyOps {T : Type} (q : BlockingQueue T) : List (QOp T) → BlockingQueue T
  | [] => q
  | op :: ops => applyOps (q.applyOp op) ops

/-- Observable effect of one `put` statement (lines 35-46): the queue
state it leaves, the wake-up it performs, and whether it threw
`QueueClosed`.  The `closed_` guard throws before `push_back` and
`notify_one` execute, so on the throwing path the state is untouched
and no consumer is woken. -/
def putEffect {T : Type} (q : BlockingQueue T) (x : T) :
    BlockingQueue T × Wake × Bool :=
  match q.put x with
  | .ok (q1, w) => (q1, w, false)
  | .error _ => (q, Wake.none, true)

end BlockingQueue

/-! ## Shutdown protocol of the TimeMachine
(src/time_machine.hpp:178-201)

```cpp
~TimeMachine() {
    queue_->close();
    while (!queue_->isEmpty()) std::this_thread::yield();
    while (state_->load());
}

void run_thread_() {
    std::thread([this] {
        std::vector<QueueData> picked;
        state_->fetch_add(1);
        while (queue_->get(picked, objects_per_thread_ - picked.size(), picked.empty()))
            process_objects_(picked);
        state_->fetch_sub(1);
    }).detach();
}
```

A small-step transition system over interleavings of the detached
worker threads and the destructor.  Queued pairs are identified by
`Nat` labels; `doneActs` is the ghost list of pairs whose action has
run and `enqueued` the ghost list of all pairs ever enqueued. -/

inductive WorkerPC where
  | start
  | loop
  | exited
  deriving DecidableEq, Repr

/-- One detached worker thread: its program counter and its local
`picked` buffer. -/
structure Worker where
  pc : WorkerPC
  picked : List Nat
  deriving DecidableEq, Repr

/-- Program counter of the destructor: before `close()`, after
`close()`, after the `isEmpty` spin loop exited, and after the
`state_` spin loop exited (destructor returned). -/
inductive DtorPC where
  | running
  | closedQ
  | observedEmpty
  | returned
  deriving DecidableEq, Repr

structure TMState where
  queue : BlockingQueue Nat
  counter : Int
  workers : List Worker
  dpc : DtorPC
  enqueued : List Nat
  doneActs : List Nat
  deriving DecidableEq, Repr

/-- Interleaving labels: worker `i` runs `state_->fetch_add(1)`
(`wStart`), one successful batch `get` (`wGet`), one
`process_objects_` pass whose probes resolve as `ready` (`wProcess`),
or observes `get == false` and runs `state_->fetch_sub(1)` and exits
(`wExit`); a producer enqueues pair `x` (`putPair`, the `queue_->put`
in `then`); the destructor runs `close()` (`dClose`), observes the
queue empty (`dObserveEmpty`), or observes the counter zero and
returns (`dReturn`). -/
inductive TMLabel where
  | wStart (i : Nat)
  | wGet (i : Nat)
  | wProcess (i : Nat) (ready : Nat → Bool)
  | wExit (i : Nat)
  | putPair (x : Nat)
  | dClose
  | dObserveEmpty
  | dReturn

/-- One interleaved step; `cap` is `objects_per_thread_`.  `none` means
the label is not enabled in this state (blocked or guard false). -/
def step (cap : Nat) (s : TMState) : TMLabel → Option TMState
  | .wStart i =>
    match s.workers[i]? with
    | some w =>
      if w.pc = .start then
        some { s with
               counter := s.counter + 1
               workers := s.workers.set i { w with pc := .loop } }
      else none
    | none => none
  | .wGet i =>
    match s.workers[i]? with
    | some w =>
      if w.pc = .loop then
        match s.queue.getBatch (cap - w.picked.length) w.picked.isEmpty with
        | .done true taken q1 =>
          some { s with
                 queue := q1
                 workers := s.workers.set i { w with picked := w.picked ++ taken } }
        | _ => none
      else none
    | none => none
  | .wProcess i ready =>
    match s.workers[i]? with
    | some w =>
      if w.pc = .loop then
        some { s with
               workers := s.workers.set i
                 { w with picked := (process_objects_ ready w.picked).1 }
               doneActs := s.doneActs ++ (process_objects_ ready w.picked).2.1 }
      else none
    | none => none
  | .wExit i =>
    match s.workers[i]? with
    | some w =>
      if w.pc = .loop then
        match s.queue.getBatch (cap - w.picked.length) w.picked.isEmpty with
        | .done false _ _ =>
          some { s with
                 counter := s.counter - 1
                 workers := s.workers.set i { w with pc := .exited } }
        | _ => none
      else none
    | none => none
  | .putPair x =>
    match s.queue.put x with
    | .ok (q1, _) =>
      some { s with
             queue := q1
             enqueued := s.enqueued ++ [x] }
    | .error _ => none
  | .dClose =>
    if s.dpc = .running then
      some { s with queue := (s.queue.close).1, dpc := .closedQ }
    else none
  | .dObserveEmpty =>
    if s.dpc = .closedQ then
      if s.queue.isEmpty then some { s with dpc := .observedEmpty } else none
    else none
  | .dReturn =>
    if s.dpc = .observedEmpty then
      if s.counter = 0 then some { s with dpc := .returned } else none
    else none

/-- Execution of a label sequence from a state. -/
def run (cap : Nat) (s : TMState) : List TMLabel → Option TMState
  | [] => some s
  | l :: ls =>
    match step cap s l with
    | some s1 => run cap s1 ls
    | none => none

/-- Initial state: `k` worker threads spawned by the constructor, none
yet scheduled, empty open queue, `state_ == 0`. -/
def initState (k : Nat) : TMState :=
  { queue := ⟨[], false⟩, counter := 0,
    workers := List.replicate k ⟨.start, []⟩,
    dpc := .running, enqueued := [], doneActs := [] }

/-- Multiset of pair labels held in workers' local buffers. -/
def pickedSum (ws : List Worker) : Multiset Nat :=
  (ws.map fun w => (w.picked : Multiset Nat)).sum

/-- Number of workers inside the `while (queue_->get(...))` loop, i.e.
between `fetch_add` and `fetch_sub`. -/
def loopCount (ws : List Worker) : Nat :=
  (ws.filter fun w => w.pc == .loop).length

/-- Inductive invariant of the shutdown protocol. -/
structure Inv (s : TMState) : Prop where
  closed_of_dpc : s.dpc ≠ .running → s.queue.closed = true
  empty_of_dpc : s.dpc = .observedEmpty ∨ s.dpc = .returned → s.queue.items = []
  counter_eq : s.counter = (loopCount s.workers : Int)
  idle_empty : ∀ w ∈ s.workers, w.pc ≠ .loop → w.picked = []
  conserve : (s.enqueued : Multiset Nat) =
    (s.queue.items : Multiset Nat) + pickedSum s.workers + (s.doneActs : Multiset Nat)

/-! ## Helper lemmas -/

/-- The actions run in one `process_objects_` pass are exactly the
probed items whose probe returned true. -/
theorem process_objects_ran_eq_filter {A : Type} (ready : A → Bool) (l : List A) :
    (process_objects_ ready l).2.1 =
      ((process_objects_ ready l).2.2).filter (fun a => ready a) := by
  induction l using process_objects_.induct ready <;>
    simp_all [process_objects_]

/-- Every item of the buffer either remains after the pass or had its
action run: the buffer is partitioned, as a multiset, into the
remainder and the completed items. -/
theorem process_objects_partition {A : Type} (ready : A → Bool) (l : List A) :
    (l : Multiset A) =
      ((process_objects_ ready l).1 : Multiset A) +
        ((process_objects_ ready l).2.1 : Multiset A) := by
  induction l using process_objects_.induct ready <;>
    simp_all [process_objects_]
  rename_i a b rest h rem ran probed heq ih
  have h1 : List.Perm (a :: b :: rest) (a :: b :: (rem ++ ran)) := (ih.cons b).cons a
  have h2 : List.Perm (a :: b :: (rem ++ ran)) (b :: a :: (rem ++ ran)) :=
    List.Perm.swap b a (rem ++ ran)
  have h3 : List.Perm (a :: (rem ++ ran)) (rem ++ a :: ran) := List.perm_middle.symm
  exact h1.trans (h2.trans (h3.cons b))

/-- A successful (`true`-returning) batch `get` takes a prefix of the
queue, leaves the rest, and preserves the closed flag; on an empty
queue it takes nothing. -/
theorem getBatch_done_true {T : Type} (q q1 : BlockingQueue T) (mc : Nat)
    (r : Bool) (taken : List T)
    (h : q.getBatch mc r = .done true taken q1) :
    q1.closed = q.closed ∧ q.items = taken ++ q1.items := by
  unfold BlockingQueue.getBatch at h
  split at h
  · exact ⟨by cases h; rfl, by cases h; simp⟩
  · split at h
    · cases h
    · split at h
      · cases h
      · cases h
        exact ⟨rfl, (q.items.take_append_drop _).symm⟩

/-- A `false`-returning batch `get` happens exactly in the
closed-and-empty state with `require_at_least_one`, takes nothing and
leaves the queue unchanged. -/
theorem getBatch_done_false {T : Type} (q q1 : BlockingQueue T) (mc : Nat)
    (r : Bool) (taken : List T)
    (h : q.getBatch mc r = .done false taken q1) :
    r = true ∧ q.items = [] ∧ q.closed = true ∧ taken = [] ∧ q1 = q := by
  unfold BlockingQueue.getBatch at h
  split at h
  · cases h
  · split at h
    · cases h
    · split at h
      · rename_i hmc hblk hre
        cases h
        have hr : r = true := by
          cases r
          · simp at hre
          · rfl
        have he : q.items = [] := by
          rw [hr] at hre
          simpa [BlockingQueue.isEmpty, List.isEmpty_iff] using hre
        have hc : q.closed = true := by
          cases hcl : q.closed
          · exact absurd (by simp [hr, hcl, BlockingQueue.isEmpty, he]) hblk
          · rfl
        exact ⟨hr, he, hc, rfl, rfl⟩
      · cases h

/-- `put` on an open queue appends at the back and wakes one
consumer. -/
theorem put_ok {T : Type} (q q1 : BlockingQueue T) (x : T) (w : Wake)
    (h : q.put x = .ok (q1, w)) :
    q.closed = false ∧ q1 = { q with items := q.items ++ [x] } ∧ w = Wake.one := by
  unfold BlockingQueue.put at h
  split at h
  · cases h
  · rename_i hc
    cases h
    exact ⟨by simpa using hc, rfl, rfl⟩

/-! ## Claim theorems -/

/-- Claim C1, counterexample: `liboffkv_try` catches
`ppconsul::BadStatus` and re-throws the very same backend-specific
exception (`throw e;`, src/error.hpp:63-64), so a backend-specific
exception type does propagate to the caller, contradicting the claim
that every failure is re-raised as a canonical ErrorKind and that no
backend exception type escapes. -/
theorem liboffkv_try_rethrows_backend_exception :
    liboffkv_try (A := Unit) (.error (.badStatus "503 service unavailable")) =
        some (.error (.badStatus "503 service unavailable")) ∧
      Exc.isBackendSpecific (.badStatus "503 service unavailable") = true ∧
      Exc.isCanonical (.badStatus "503 service unavailable") = false := by
  exact ⟨rfl, rfl, rfl⟩

/-- Claim C1, amended: `liboffkv_try` translates only `zk` `no_entry`
and `entry_exists` into the canonical kinds `NoEntry` and
`EntryExists`; it re-throws `zk::error` with `version_mismatch`,
`ppconsul::BadStatus` and `ppconsul::kv::UpdateError` as the original
backend-specific exception; any exception that is not one of the three
caught backend types propagates unchanged (there is no `ServiceError`
wrapping); normal returns pass through. -/
theorem liboffkv_try_translation (A : Type) (a : A) (d : String) (e : Exc)
    (hnb : e.isBackendSpecific = false) :
    liboffkv_try (.ok a) = some (.ok a) ∧
      liboffkv_try (A := A) (.error (.zkError .no_entry)) = some (.error .noEntry) ∧
      liboffkv_try (A := A) (.error (.zkError .entry_exists)) = some (.error .entryExists) ∧
      Exc.isCanonical .noEntry = true ∧
      Exc.isCanonical .entryExists = true ∧
      liboffkv_try (A := A) (.error (.zkError .version_mismatch)) =
        some (.error (.zkError .version_mismatch)) ∧
      liboffkv_try (A := A) (.error (.badStatus d)) = some (.error (.badStatus d)) ∧
      liboffkv_try (A := A) (.error (.updateError d)) = some (.error (.updateError d)) ∧
      liboffkv_try (A := A) (.error e) = some (.error e) := by
  refine ⟨rfl, rfl, rfl, rfl, rfl, rfl, rfl, rfl, ?_⟩
  cases e <;> simp_all [liboffkv_try, Exc.isBackendSpecific]

/-- Witness for the amended C1 theorem at concrete inputs. -/
theorem liboffkv_try_translation_witness :
    Exc.isBackendSpecific .invalidKey = false ∧
      (liboffkv_try (.ok (0 : Nat)) = some (.ok 0) ∧
        liboffkv_try (A := Nat) (.error (.zkError .no_entry)) = some (.error .noEntry) ∧
        liboffkv_try (A := Nat) (.error (.zkError .entry_exists)) = some (.error .entryExists) ∧
        Exc.isCanonical .noEntry = true ∧
        Exc.isCanonical .entryExists = true ∧
        liboffkv_try (A := Nat) (.error (.zkError .version_mismatch)) =
          some (.error (.zkError .version_mismatch)) ∧
        liboffkv_try (A := Nat) (.error (.badStatus "x")) = some (.error (.badStatus "x")) ∧
        liboffkv_try (A := Nat) (.error (.updateError "x")) = some (.error (.updateError "x")) ∧
        liboffkv_try (A := Nat) (.error .invalidKey) = some (.error .invalidKey)) :=
  ⟨rfl, liboffkv_try_translation Nat 0 "x" .invalidKey rfl⟩

/-- Claim C2, counterexample: with both buffered items ready,
`process_objects_` probes and runs only the first one; `vector::erase`
shifts the second item onto the erased slot and the loop's `++it`
steps past it, so the second item is never probed in this pass even
though its probe would have returned true, and it stays in the
buffer. -/
theorem process_objects_skips_item_after_ready :
    process_objects_ (fun _ => true) [0, 1] = ([1], [0], [0]) ∧
      ¬(∀ a ∈ [(0 : Nat), 1], a ∈ (process_objects_ (fun _ => true) [(0 : Nat), 1]).2.2) := by
  exact ⟨rfl, by decide⟩

/-- Claim C2, amended: in one `process_objects_` pass the buffer is
scanned left to right; exactly the probed items whose probe returned
true have their action invoked and are removed (the item immediately
after each removed one is skipped, i.e. left unprobed, in this pass),
every item either remains or had its action run, and every item whose
probe would return false remains in the buffer. -/
theorem process_objects_pass (A : Type) (ready : A → Bool) (l : List A) :
    (process_objects_ ready l).2.1 =
        ((process_objects_ ready l).2.2).filter (fun a => ready a) ∧
      (l : Multiset A) =
        ((process_objects_ ready l).1 : Multiset A) +
          ((process_objects_ ready l).2.1 : Multiset A) ∧
      (∀ a ∈ l, ready a = false → a ∈ (process_objects_ ready l).1) := by
  refine ⟨process_objects_ran_eq_filter ready l, process_objects_partition ready l, ?_⟩
  intro a hal hnr
  have hmem : a ∈ ((process_objects_ ready l).1 : Multiset A) +
      ((process_objects_ ready l).2.1 : Multiset A) := by
    rw [← process_objects_partition ready l]
    simpa using hal
  rcases Multiset.mem_add.mp hmem with hr | hr
  · simpa using hr
  · exfalso
    have : a ∈ ((process_objects_ ready l).2.2).filter (fun a => ready a) := by
      rw [← process_objects_ran_eq_filter ready l]
      simpa using hr
    have := List.of_mem_filter this
    simp_all

/-- Witness for the amended C2 theorem: with probe `n == 0` on buffer
`[0, 1]`, item 1 probes false and remains in the buffer. -/
theorem process_objects_pass_witness :
    (1 : Nat) ∈ (process_objects_ (fun n : Nat => n == 0) [0, 1]).1 :=
  (process_objects_pass Nat (fun n => n == 0) [0, 1]).2.2 1 (by decide) (by decide)

/-- Claim C3: when the continuation `func` throws exception `e`, the
action built by `TimeMachine::then` settles the fresh output promise
with exactly that exception (`set_exception(std::current_exception())`),
neither reinterpreted nor discarded. -/
theorem then_action_propagates_thrown_error (B : Type) (e : Exc) :
    then_action (B := B) .unset (.error e) = .failed e := rfl

/-- Claim C5: `put` throws `QueueClosed` on a closed queue; on an open
queue it appends the item at the back and performs one
`notify_one`. -/
theorem put_contract (T : Type) (q : BlockingQueue T) (x : T) :
    (q.closed = true → q.put x = .error ()) ∧
      (q.closed = false →
        q.put x = .ok ({ q with items := q.items ++ [x] }, Wake.one)) := by
  constructor <;> intro h <;> simp [BlockingQueue.put, h]

/-- Witness for C5 at concrete queues. -/
theorem put_contract_witness :
    ((⟨[5], true⟩ : BlockingQueue Nat).put 7 = .error ()) ∧
      ((⟨[5], false⟩ : BlockingQueue Nat).put 7 = .ok (⟨[5, 7], false⟩, Wake.one)) :=
  ⟨(put_contract Nat ⟨[5], true⟩ 7).1 rfl, (put_contract Nat ⟨[5], false⟩ 7).2 rfl⟩

/-- Claim C6: the single-item `get` returns false exactly on an empty
closed queue, blocks exactly on an empty open queue, and otherwise
pops and returns the front (oldest) item. -/
theorem get_one_contract (T : Type) (q : BlockingQueue T) :
    (q.get = .closedEmpty ↔ (q.items = [] ∧ q.closed = true)) ∧
      (q.get = .blocked ↔ (q.items = [] ∧ q.closed = false)) ∧
      (∀ a rest, q.items = a :: rest → q.get = .got a { q with items := rest }) := by
  unfold BlockingQueue.get
  refine ⟨?_, ?_, ?_⟩
  · constructor
    · intro h
      cases hc : q.closed <;> cases hi : q.items <;>
        simp_all [BlockingQueue.isEmpty]
    · rintro ⟨h1, h2⟩
      simp [h1, h2, BlockingQueue.isEmpty]
  · constructor
    · intro h
      cases hc : q.closed <;> cases hi : q.items <;>
        simp_all [BlockingQueue.isEmpty]
    · rintro ⟨h1, h2⟩
      simp [h1, h2, BlockingQueue.isEmpty]
  · intro a rest h
    cases hc : q.closed <;> simp_all [BlockingQueue.isEmpty]

/-- Witness for C6 at concrete queues. -/
theorem get_one_contract_witness :
    ((⟨[], true⟩ : BlockingQueue Nat).get = .closedEmpty) ∧
      ((⟨[], false⟩ : BlockingQueue Nat).get = .blocked) ∧
      ((⟨[3, 4], false⟩ : BlockingQueue Nat).get = .got 3 ⟨[4], false⟩) :=
  ⟨(get_one_contract Nat ⟨[], true⟩).1.mpr ⟨rfl, rfl⟩,
    (get_one_contract Nat ⟨[], false⟩).2.1.mpr ⟨rfl, rfl⟩,
    (get_one_contract Nat ⟨[3, 4], false⟩).2.2 3 [4] rfl⟩

/-- Claim C7: for positive `max_count`, the batch `get` with
`require_at_least_one` blocks on an empty open queue, returns false on
an empty closed queue, and otherwise moves `min max_count size` front
items out in FIFO order; without `require_at_least_one` it returns
immediately on an empty queue having added nothing. -/
theorem get_batch_contract (T : Type) (q : BlockingQueue T) (mc : Nat)
    (hmc : 0 < mc) :
    (q.items = [] ∧ q.closed = false → q.getBatch mc true = .blocked) ∧
      (q.items = [] ∧ q.closed = true → q.getBatch mc true = .done false [] q) ∧
      (q.items ≠ [] →
        q.getBatch mc true =
          .done true (q.items.take (min mc q.items.length))
            { q with items := q.items.drop (min mc q.items.length) }) ∧
      (q.items = [] → q.getBatch mc false = .done true [] q) := by
  have hmc0 : mc ≠ 0 := Nat.pos_iff_ne_zero.mp hmc
  refine ⟨?_, ?_, ?_, ?_⟩
  · rintro ⟨h1, h2⟩
    simp [BlockingQueue.getBatch, BlockingQueue.isEmpty, h1, h2, hmc0]
  · rintro ⟨h1, h2⟩
    simp [BlockingQueue.getBatch, BlockingQueue.isEmpty, h1, h2, hmc0]
  · intro h
    have hne : q.items.isEmpty = false := by
      cases hi : q.items <;> simp_all
    simp [BlockingQueue.getBatch, BlockingQueue.isEmpty, hne, hmc0]
  · intro h
    obtain ⟨i, c⟩ := q
    simp_all [BlockingQueue.getBatch, BlockingQueue.isEmpty, hmc0]

/-- Witness for C7 at concrete queues with `max_count = 2`. -/
theorem get_batch_contract_witness :
    ((⟨[], false⟩ : BlockingQueue Nat).getBatch 2 true = .blocked) ∧
      ((⟨[], true⟩ : BlockingQueue Nat).getBatch 2 true = .done false [] ⟨[], true⟩) ∧
      ((⟨[1, 2, 3], false⟩ : BlockingQueue Nat).getBatch 2 true =
        .done true [1, 2] ⟨[3], false⟩) ∧
      ((⟨[], false⟩ : BlockingQueue Nat).getBatch 2 false = .done true [] ⟨[], false⟩) := by
  refine ⟨(get_batch_contract Nat ⟨[], false⟩ 2 (by decide)).1 ⟨rfl, rfl⟩,
    (get_batch_contract Nat ⟨[], true⟩ 2 (by decide)).2.1 ⟨rfl, rfl⟩, ?_,
    (get_batch_contract Nat ⟨[], false⟩ 2 (by decide)).2.2.2 rfl⟩
  have h := (get_batch_contract Nat ⟨[1, 2, 3], false⟩ 2 (by decide)).2.2.1 (by decide)
  simpa using h

/-- Claim C9: the batch `get` with `max_count = 0` returns true
immediately, before taking the lock or looking at `closed_`, adds
nothing to the output and leaves the queue unchanged — for every queue
state, closed-and-empty included. -/
theorem get_batch_zero_immediate (T : Type) (q : BlockingQueue T) (r : Bool) :
    q.getBatch 0 r = .done true [] q := by
  simp [BlockingQueue.getBatch]

/-- Claim C10: when `put` throws `QueueClosed`, the throw happens
before `push_back` and `notify_one`, so the queue contents are
untouched and no consumer is woken. -/
theorem put_closed_atomic (T : Type) (q : BlockingQueue T) (x : T)
    (h : q.closed = true) :
    q.putEffect x = (q, Wake.none, true) := by
  simp [BlockingQueue.putEffect, BlockingQueue.put, h]

/-- Witness for C10 at a concrete closed queue. -/
theorem put_closed_atomic_witness :
    (⟨[1, 2], true⟩ : BlockingQueue Nat).putEffect 9 = (⟨[1, 2], true⟩, Wake.none, true) :=
  put_closed_atomic Nat ⟨[1, 2], true⟩ 9 rfl

/-- Once a queue is closed it stays closed under any sequence of
serialized calls, and its contents only shrink from the front: the
items are always a suffix (`drop k`) of the items present at
closure. -/
theorem applyOps_closed_drop (T : Type) (ops : List (QOp T)) :
    ∀ q : BlockingQueue T, q.closed = true →
      (q.applyOps ops).closed = true ∧
        ∃ k, (q.applyOps ops).items = q.items.drop k := by
  induction ops with
  | nil =>
    intro q hq
    exact ⟨hq, 0, by simp [BlockingQueue.applyOps]⟩
  | cons op ops ih =>
    intro q hq
    have hstep : (q.applyOp op).closed = true ∧
        ∃ j, (q.applyOp op).items = q.items.drop j := by
      cases op with
      | put x =>
        refine ⟨?_, 0, ?_⟩ <;> simp [BlockingQueue.applyOp, BlockingQueue.put, hq]
      | getOne =>
        cases hi : q.items with
        | nil =>
          have hg : q.get = .closedEmpty := by
            simp [BlockingQueue.get, BlockingQueue.isEmpty, hi, hq]
          refine ⟨?_, 0, ?_⟩ <;> simp [BlockingQueue.applyOp, hg, hq, hi]
        | cons a rest =>
          have hg : q.get = .got a { q with items := rest } := by
            simp [BlockingQueue.get, BlockingQueue.isEmpty, hi, hq]
          refine ⟨?_, 1, ?_⟩ <;> simp [BlockingQueue.applyOp, hg, hq, hi]
      | close =>
        exact ⟨rfl, 0, by simp [BlockingQueue.applyOp, BlockingQueue.close]⟩
    obtain ⟨h1, j, h2⟩ := hstep
    obtain ⟨h3, k, h4⟩ := ih (q.applyOp op) h1
    refine ⟨h3, k + j, ?_⟩
    have hu : q.applyOps (op :: ops) = (q.applyOp op).applyOps ops := rfl
    rw [hu, h4, h2, List.drop_drop, Nat.add_comm]

/-- Claim C4: after `close()`, under any further sequence of serialized
queue calls, the queue stays closed, every `put` raises `QueueClosed`,
the contents are a front-truncation of the items enqueued before
closure (so `get` keeps returning exactly those items, oldest first),
and once the queue is empty `get` returns false. -/
theorem queue_closure (T : Type) (q : BlockingQueue T) (ops : List (QOp T))
    (hq : q.closed = true) :
    (q.applyOps ops).closed = true ∧
      (∀ x, (q.applyOps ops).put x = .error ()) ∧
      (∃ k, (q.applyOps ops).items = q.items.drop k) ∧
      ((q.applyOps ops).items = [] → (q.applyOps ops).get = .closedEmpty) ∧
      (∀ a rest, (q.applyOps ops).items = a :: rest →
        (q.applyOps ops).get = .got a { q.applyOps ops with items := rest }) := by
  obtain ⟨h1, k, h2⟩ := applyOps_closed_drop T ops q hq
  refine ⟨h1, ?_, ⟨k, h2⟩, ?_, ?_⟩
  · intro x
    simp [BlockingQueue.put, h1]
  · intro he
    simp [BlockingQueue.get, BlockingQueue.isEmpty, he, h1]
  · intro a rest hi
    simp [BlockingQueue.get, BlockingQueue.isEmpty, hi, h1]

/-- Witness for C4: a closed queue holding `[1, 2]`, after a rejected
`put` and one `get`, still rejects `put`, holds the pre-closure suffix
`[2]` and pops it on `get`. -/
theorem queue_closure_witness :
    ((⟨[1, 2], true⟩ : BlockingQueue Nat).applyOps [.put 9, .getOne]).closed = true ∧
      ((⟨[1, 2], true⟩ : BlockingQueue Nat).applyOps [.put 9, .getOne]).put 7 = .error () ∧
      (∃ k, ((⟨[1, 2], true⟩ : BlockingQueue Nat).applyOps [.put 9, .getOne]).items =
        [1, 2].drop k) ∧
      ((⟨[1, 2], true⟩ : BlockingQueue Nat).applyOps [.put 9, .getOne]).get =
        .got 2 ⟨[], true⟩ := by
  have h := queue_closure Nat ⟨[1, 2], true⟩ [.put 9, .getOne] rfl
  exact ⟨h.1, h.2.1 7, h.2.2.1, by simpa using h.2.2.2.2 2 [] rfl⟩

/-! ## Shutdown-protocol invariant lemmas -/

theorem pickedSum_cons (w : Worker) (ws : List Worker) :
    pickedSum (w :: ws) = (w.picked : Multiset Nat) + pickedSum ws := by
  simp [pickedSum]

theorem pickedSum_set (ws : List Worker) (i : Nat) (w w1 : Worker)
    (h : ws[i]? = some w) :
    pickedSum (ws.set i w1) + (w.picked : Multiset Nat) =
      pickedSum ws + (w1.picked : Multiset Nat) := by
  induction ws generalizing i with
  | nil => simp at h
  | cons x xs ih =>
    cases i with
    | zero =>
      rw [List.getElem?_cons_zero] at h
      cases h
      simp only [List.set, pickedSum_cons]
      abel
    | succ n =>
      rw [List.getElem?_cons_succ] at h
      simp only [List.set, pickedSum_cons]
      rw [add_assoc, ih n h, add_assoc]

theorem pickedSum_eq_zero (ws : List Worker) (h : ∀ w ∈ ws, w.picked = []) :
    pickedSum ws = 0 := by
  induction ws with
  | nil => rfl
  | cons x xs ih =>
    rw [pickedSum_cons, h x (by simp), ih fun w hw => h w (by simp [hw])]
    simp

theorem loopCount_cons (w : Worker) (ws : List Worker) :
    loopCount (w :: ws) = (if w.pc = .loop then 1 else 0) + loopCount ws := by
  by_cases h : w.pc = .loop <;>
    simp [loopCount, List.filter_cons, h, Nat.add_comm]

theorem loopCount_set (ws : List Worker) (i : Nat) (w w1 : Worker)
    (h : ws[i]? = some w) :
    loopCount (ws.set i w1) + (if w.pc = .loop then 1 else 0) =
      loopCount ws + (if w1.pc = .loop then 1 else 0) := by
  induction ws generalizing i with
  | nil => simp at h
  | cons x xs ih =>
    cases i with
    | zero =>
      rw [List.getElem?_cons_zero] at h
      cases h
      simp only [List.set, loopCount_cons]
      omega
    | succ n =>
      rw [List.getElem?_cons_succ] at h
      simp only [List.set, loopCount_cons]
      have := ih n h
      omega

/-- The invariant holds initially. -/
theorem inv_init (k : Nat) : Inv (initState k) := by
  refine ⟨?_, ?_, ?_, ?_, ?_⟩
  · intro h
    exact absurd rfl h
  · rintro (h | h) <;> cases h
  · have : loopCount (List.replicate k ⟨.start, []⟩) = 0 := by
      rw [loopCount, List.filter_eq_nil_iff.mpr ?_]
      · rfl
      · intro w hw
        have := List.eq_of_mem_replicate hw
        simp [this]
    simp [initState, this]
  · intro w hw _
    have := List.eq_of_mem_replicate (by simpa [initState] using hw)
    simp [this]
  · have : pickedSum (List.replicate k ⟨.start, []⟩) = 0 := by
      apply pickedSum_eq_zero
      intro w hw
      have := List.eq_of_mem_replicate hw
      simp [this]
    simp [initState, this]

/-- Every enabled interleaving step preserves the invariant. -/
theorem inv_step (cap : Nat) (s s1 : TMState) (l : TMLabel)
    (hinv : Inv s) (hstep : step cap s l = some s1) : Inv s1 := by
  obtain ⟨hc, he, hcnt, hidle, hcons⟩ := hinv
  cases l with
  | wStart i =>
    simp only [step] at hstep
    split at hstep
    next w hw =>
      split at hstep
      next hpc =>
        cases hstep
        have hl : loopCount (s.workers.set i { w with pc := .loop }) =
            loopCount s.workers + 1 := by
          simpa [hpc] using loopCount_set s.workers i w { w with pc := .loop } hw
        have hp2 : pickedSum (s.workers.set i { w with pc := .loop }) =
            pickedSum s.workers :=
          add_right_cancel (pickedSum_set s.workers i w { w with pc := .loop } hw)
        refine ⟨hc, he, ?_, ?_, ?_⟩
        · show s.counter + 1 =
            (loopCount (s.workers.set i { w with pc := .loop }) : Int)
          rw [hcnt, hl]
          push_cast
          ring
        · intro w1 hmem hpc1
          have hmem1 : w1 ∈ s.workers.set i { w with pc := .loop } := hmem
          rcases List.mem_or_eq_of_mem_set hmem1 with h1 | h1
          · exact hidle w1 h1 hpc1
          · exact absurd (by rw [h1]) hpc1
        · show (s.enqueued : Multiset Nat) = (s.queue.items : Multiset Nat) +
            pickedSum (s.workers.set i { w with pc := .loop }) +
            (s.doneActs : Multiset Nat)
          rw [hp2]
          exact hcons
      next => cases hstep
    next => cases hstep
  | wGet i =>
    simp only [step] at hstep
    split at hstep
    next w hw =>
      split at hstep
      next hpc =>
        split at hstep
        next taken q1 hq =>
          cases hstep
          obtain ⟨hbc, hbi⟩ := getBatch_done_true s.queue q1 _ _ taken hq
          have hl : loopCount (s.workers.set i { w with picked := w.picked ++ taken }) =
              loopCount s.workers := by
            simpa [hpc] using
              loopCount_set s.workers i w { w with picked := w.picked ++ taken } hw
          have hp2 : pickedSum (s.workers.set i { w with picked := w.picked ++ taken }) =
              pickedSum s.workers + (taken : Multiset Nat) := by
            have h0 : pickedSum (s.workers.set i { w with picked := w.picked ++ taken }) +
                (w.picked : Multiset Nat) =
                pickedSum s.workers +
                  ((w.picked : Multiset Nat) + (taken : Multiset Nat)) := by
              have h1 := pickedSum_set s.workers i w
                { w with picked := w.picked ++ taken } hw
              rwa [show ((w.picked ++ taken : List Nat) : Multiset Nat) =
                (w.picked : Multiset Nat) + (taken : Multiset Nat) from
                  (Multiset.coe_add _ _).symm] at h1
            apply add_right_cancel (b := (w.picked : Multiset Nat))
            rw [h0]
            abel
          refine ⟨?_, ?_, ?_, ?_, ?_⟩
          · intro hd
            show q1.closed = true
            rw [hbc]
            exact hc hd
          · intro hd
            have hie : s.queue.items = [] := he hd
            rw [hie] at hbi
            exact (List.append_eq_nil.mp hbi.symm).2
          · show s.counter =
              (loopCount (s.workers.set i { w with picked := w.picked ++ taken }) : Int)
            rw [hcnt, hl]
          · intro w1 hmem hpc1
            have hmem1 : w1 ∈ s.workers.set i { w with picked := w.picked ++ taken } :=
              hmem
            rcases List.mem_or_eq_of_mem_set hmem1 with h1 | h1
            · exact hidle w1 h1 hpc1
            · exact absurd (by rw [h1]; exact hpc) hpc1
          · show (s.enqueued : Multiset Nat) = (q1.items : Multiset Nat) +
              pickedSum (s.workers.set i { w with picked := w.picked ++ taken }) +
              (s.doneActs : Multiset Nat)
            rw [hcons, hbi, hp2, ← Multiset.coe_add]
            abel
        next => cases hstep
      next => cases hstep
    next => cases hstep
  | wProcess i ready =>
    simp only [step] at hstep
    split at hstep
    next w hw =>
      split at hstep
      next hpc =>
        cases hstep
        have hpart := process_objects_partition ready w.picked
        have hl : loopCount (s.workers.set i
            { w with picked := (process_objects_ ready w.picked).1 }) =
            loopCount s.workers := by
          simpa [hpc] using loopCount_set s.workers i w
            { w with picked := (process_objects_ ready w.picked).1 } hw
        have hp2 : pickedSum s.workers =
            pickedSum (s.workers.set i
              { w with picked := (process_objects_ ready w.picked).1 }) +
              ((process_objects_ ready w.picked).2.1 : Multiset Nat) := by
          have h0 : pickedSum (s.workers.set i
              { w with picked := (process_objects_ ready w.picked).1 }) +
              (((process_objects_ ready w.picked).1 : Multiset Nat) +
                ((process_objects_ ready w.picked).2.1 : Multiset Nat)) =
              pickedSum s.workers +
                ((process_objects_ ready w.picked).1 : Multiset Nat) := by
            have h1 := pickedSum_set s.workers i w
              { w with picked := (process_objects_ ready w.picked).1 } hw
            rw [← hpart]
            exact h1
          apply add_right_cancel
            (b := ((process_objects_ ready w.picked).1 : Multiset Nat))
          rw [← h0]
          abel
        refine ⟨hc, he, ?_, ?_, ?_⟩
        · show s.counter = (loopCount (s.workers.set i
            { w with picked := (process_objects_ ready w.picked).1 }) : Int)
          rw [hcnt, hl]
        · intro w1 hmem hpc1
          have hmem1 : w1 ∈ s.workers.set i
              { w with picked := (process_objects_ ready w.picked).1 } := hmem
          rcases List.mem_or_eq_of_mem_set hmem1 with h1 | h1
          · exact hidle w1 h1 hpc1
          · exact absurd (by rw [h1]; exact hpc) hpc1
        · show (s.enqueued : Multiset Nat) = (s.queue.items : Multiset Nat) +
            pickedSum (s.workers.set i
              { w with picked := (process_objects_ ready w.picked).1 }) +
            ((s.doneActs ++ (process_objects_ ready w.picked).2.1 : List Nat) :
              Multiset Nat)
          rw [hcons, hp2, ← Multiset.coe_add]
          abel
      next => cases hstep
    next => cases hstep
  | wExit i =>
    simp only [step] at hstep
    split at hstep
    next w hw =>
      split at hstep
      next hpc =>
        split at hstep
        next t q1 hq =>
          cases hstep
          obtain ⟨hr, hqe, hqc, -, -⟩ := getBatch_done_false s.queue q1 _ _ t hq
          have hpicked : w.picked = [] := by
            simpa [List.isEmpty_iff] using hr
          have hl : loopCount (s.workers.set i { w with pc := .exited }) + 1 =
              loopCount s.workers := by
            simpa [hpc] using loopCount_set s.workers i w { w with pc := .exited } hw
          have hp2 : pickedSum (s.workers.set i { w with pc := .exited }) =
              pickedSum s.workers :=
            add_right_cancel (pickedSum_set s.workers i w { w with pc := .exited } hw)
          refine ⟨fun _ => hqc, fun _ => hqe, ?_, ?_, ?_⟩
          · show s.counter - 1 =
              (loopCount (s.workers.set i { w with pc := .exited }) : Int)
            rw [hcnt]
            omega
          · intro w1 hmem hpc1
            have hmem1 : w1 ∈ s.workers.set i { w with pc := .exited } := hmem
            rcases List.mem_or_eq_of_mem_set hmem1 with h1 | h1
            · exact hidle w1 h1 hpc1
            · rw [h1]
              exact hpicked
          · show (s.enqueued : Multiset Nat) = (s.queue.items : Multiset Nat) +
              pickedSum (s.workers.set i { w with pc := .exited }) +
              (s.doneActs : Multiset Nat)
            rw [hp2]
            exact hcons
        next => cases hstep
      next => cases hstep
    next => cases hstep
  | putPair x =>
    simp only [step] at hstep
    cases hp : s.queue.put x with
    | error e => rw [hp] at hstep; cases hstep
    | ok pair =>
      obtain ⟨q1, wk⟩ := pair
      rw [hp] at hstep
      cases hstep
      obtain ⟨hpc, hpq, -⟩ := put_ok s.queue q1 x wk hp
      refine ⟨?_, ?_, hcnt, hidle, ?_⟩
      · intro hd
        exact absurd (hc hd) (by simp [hpc])
      · intro hd
        have hnr : s.dpc ≠ .running := by
          rcases hd with h | h <;> simp at h <;> simp [h]
        exact absurd (hc hnr) (by simp [hpc])
      · show ((s.enqueued ++ [x] : List Nat) : Multiset Nat) =
          (q1.items : Multiset Nat) + _ + _
        rw [hpq]
        show _ = ((s.queue.items ++ [x] : List Nat) : Multiset Nat) + _ + _
        rw [← Multiset.coe_add, ← Multiset.coe_add, hcons]
        abel
  | dClose =>
    simp only [step] at hstep
    split at hstep
    case isTrue hd =>
      cases hstep
      refine ⟨fun _ => rfl, ?_, hcnt, hidle, ?_⟩
      · rintro (h | h) <;> simp at h
      · show (s.enqueued : Multiset Nat) = _
        simpa [BlockingQueue.close] using hcons
    case isFalse => cases hstep
  | dObserveEmpty =>
    simp only [step] at hstep
    split at hstep
    case isTrue hd =>
      split at hstep
      case isTrue hie =>
        cases hstep
        refine ⟨?_, ?_, hcnt, hidle, hcons⟩
        · intro _
          exact hc (by rw [hd]; decide)
        · intro _
          simpa [BlockingQueue.isEmpty, List.isEmpty_iff] using hie
      case isFalse => cases hstep
    case isFalse => cases hstep
  | dReturn =>
    simp only [step] at hstep
    split at hstep
    case isTrue hd =>
      split at hstep
      case isTrue hz =>
        cases hstep
        refine ⟨?_, ?_, hcnt, hidle, hcons⟩
        · intro _
          exact hc (by rw [hd]; decide)
        · intro _
          exact he (Or.inl hd)
      case isFalse => cases hstep
    case isFalse => cases hstep

/-- The invariant holds along any execution. -/
theorem inv_run (cap : Nat) (ls : List TMLabel) :
    ∀ s s1 : TMState, Inv s → run cap s ls = some s1 → Inv s1 := by
  induction ls with
  | nil =>
    intro s s1 hinv hrun
    cases hrun
    exact hinv
  | cons l ls ih =>
    intro s s1 hinv hrun
    simp only [run] at hrun
    cases hs : step cap s l with
    | none => rw [hs] at hrun; cases hrun
    | some s2 =>
      rw [hs] at hrun
      exact ih s2 s1 (inv_step cap s s2 l hinv hs) hrun

/-- Claim C8: along every interleaved execution of the workers, the
producers and the destructor from a fresh `TimeMachine` with `k`
workers and `objects_per_thread = cap`: (a) whenever the destructor's
return transition fires (both spin loops have exited), at that moment
the queue is closed and empty, the active-worker counter `state_` is
zero, and every pair ever enqueued has had its action run; (b)
whenever a worker observes `get == false` and exits, at that moment
the queue is closed and empty, so every enqueued pair has been drained
from the queue by some worker (it sits in a local buffer or its action
already ran). -/
theorem tm_destructor_shutdown (cap k : Nat) (ls : List TMLabel) (s : TMState)
    (hrun : run cap (initState k) ls = some s) :
    (∀ s1, step cap s .dReturn = some s1 →
      s.queue.closed = true ∧ s.queue.items = [] ∧ s.counter = 0 ∧
        (s.enqueued : Multiset Nat) = (s.doneActs : Multiset Nat)) ∧
    (∀ i s1, step cap s (.wExit i) = some s1 →
      s.queue.closed = true ∧ s.queue.items = [] ∧
        (s.enqueued : Multiset Nat) =
          pickedSum s.workers + (s.doneActs : Multiset Nat)) := by
  have hinv := inv_run cap ls (initState k) s (inv_init k) hrun
  obtain ⟨hc, he, hcnt, hidle, hcons⟩ := hinv
  constructor
  · intro s1 hstep
    simp only [step] at hstep
    split at hstep
    next hd =>
      split at hstep
      next hz =>
        have hclosed : s.queue.closed = true := hc (by rw [hd]; decide)
        have hempty : s.queue.items = [] := he (Or.inl hd)
        have hlc : loopCount s.workers = 0 := by
          have := hcnt
          omega
        have hfil : ∀ w ∈ s.workers, w.pc ≠ .loop := by
          have hnil : (s.workers.filter fun w => w.pc == .loop) = [] :=
            List.length_eq_zero.mp hlc
          intro w hwmem
          have := List.filter_eq_nil_iff.mp hnil w hwmem
          simpa using this
        have hps : pickedSum s.workers = 0 :=
          pickedSum_eq_zero s.workers fun w hwmem => hidle w hwmem (hfil w hwmem)
        refine ⟨hclosed, hempty, hz, ?_⟩
        rw [hcons, hempty, hps]
        simp
      next => cases hstep
    next => cases hstep
  · intro i s1 hstep
    simp only [step] at hstep
    split at hstep
    next w hw =>
      split at hstep
      next hpc =>
        split at hstep
        next t q1 hq =>
          obtain ⟨-, hqe, hqc, -, -⟩ := getBatch_done_false s.queue q1 _ _ t hq
          refine ⟨hqc, hqe, ?_⟩
          rw [hcons, hqe]
          simp
        next => cases hstep
      next => cases hstep
    next => cases hstep

/-- Witness for C8: a concrete interleaving with one worker — enqueue
pair 0, worker starts, destructor closes, worker picks the pair, runs
it, exits, destructor observes the empty queue — after which the
destructor return transition fires and the final state is closed,
empty, with counter zero and the one enqueued pair completed. -/
theorem tm_destructor_shutdown_witness :
    step 10 (⟨⟨[], true⟩, 0, [⟨.exited, []⟩], .observedEmpty, [0], [0]⟩ : TMState)
        .dReturn =
      some (⟨⟨[], true⟩, 0, [⟨.exited, []⟩], .returned, [0], [0]⟩ : TMState) ∧
      ((⟨⟨[], true⟩, 0, [⟨.exited, []⟩], .observedEmpty, [0], [0]⟩ :
          TMState).queue.closed = true ∧
        (⟨⟨[], true⟩, 0, [⟨.exited, []⟩], .observedEmpty, [0], [0]⟩ :
          TMState).queue.items = [] ∧
        (⟨⟨[], true⟩, 0, [⟨.exited, []⟩], .observedEmpty, [0], [0]⟩ :
          TMState).counter = 0 ∧
        (([0] : List Nat) : Multiset Nat) = (([0] : List Nat) : Multiset Nat)) := by
  have h := tm_destructor_shutdown 10 1
    [.putPair 0, .wStart 0, .dClose, .wGet 0, .wProcess 0 (fun _ => true), .wExit 0,
      .dObserveEmpty]
    (⟨⟨[], true⟩, 0, [⟨.exited, []⟩], .observedEmpty, [0], [0]⟩ : TMState)
    (by decide)
  exact ⟨rfl, h.1 (⟨⟨[], true⟩, 0, [⟨.exited, []⟩], .returned, [0], [0]⟩ : TMState) rfl⟩

end LibOffKv
